import Mathlib

/-!
Verification of the Codegraph core (graph store, query layer, indexing
pipeline) against its natural-language specification.  The Go source is
shallowly embedded: the SQLite tables become Lean lists of rows, each SQL
statement of `internal/db/manager.go` becomes a pure function on that
state, and the indexing pipeline of `internal/indexer` becomes a fold over
per-file jobs.  SQL `LIKE` is modelled with its real semantics: `%`
matches any character sequence, `_` matches any single character, and
ASCII letters compare case-insensitively (SQLite default collation for
`LIKE`); SQL `=` on TEXT is modelled as exact string equality (BINARY
collation).  `ORDER BY` clauses are modelled by an insertion sort and
`GROUP BY` over the call-site triple by first-occurrence deduplication
(SQLite returns one arbitrary representative row per group; the proofs
about grouped queries only use properties that hold for any choice).
-/

namespace Codegraph

/-- All suffixes of a list, longest first, ending with `[]`. -/
def tailsOf : List α → List (List α)
  | [] => [[]]
  | x :: xs => (x :: xs) :: tailsOf xs


/-- ASCII lower-casing of a single character, as used by SQLite for the
default case-insensitive `LIKE` comparison. -/
def asciiLower (c : Char) : Char :=
  if 'A' ≤ c ∧ c ≤ 'Z' then Char.ofNat (c.toNat + 32) else c


/-- SQLite `LIKE` matching over character lists: first argument is the
pattern (`%` matches any sequence, `_` any single character, other
characters compare ASCII-case-insensitively), second is the subject. -/
def likeMatchL : List Char → List Char → Bool
  | [], s => s.isEmpty
  | '%' :: ps, s => (tailsOf s).any (fun t => likeMatchL ps t)
  | '_' :: ps, s =>
    match s with
    | [] => false
    | _ :: cs => likeMatchL ps cs
  | p :: ps, s =>
    match s with
    | [] => false
    | c :: cs => (asciiLower p == asciiLower c) && likeMatchL ps cs


/-- SQLite `LIKE` on strings. -/
def likeMatch (pattern s : String) : Bool :=
  likeMatchL pattern.data s.data


/-- Insert an element into a list sorted by `le`, keeping it sorted. -/
def insertLe (le : α → α → Bool) (x : α) : List α → List α
  | [] => [x]
  | y :: ys => if le y x then y :: insertLe le x ys else x :: y :: ys


/-- Insertion sort by a boolean comparison, modelling SQL `ORDER BY`. -/
def sortLe (le : α → α → Bool) : List α → List α
  | [] => []
  | x :: xs => insertLe le x (sortLe le xs)


/-- Deduplication by key with an accumulator of keys already seen; keeps
the first row of each key group, modelling SQL `GROUP BY` over bare
columns (one representative row per group). -/
def dedupByAux (key : α → κ) [BEq κ] : List α → List κ → List α
  | [], _ => []
  | x :: xs, seen =>
    if seen.contains (key x) then dedupByAux key xs seen
    else x :: dedupByAux key xs (key x :: seen)


/-- Keep one representative row per key group. -/
def dedupBy (key : α → κ) [BEq κ] (l : List α) : List α :=
  dedupByAux key l []


/-!  Data model: the four tables of `internal/db/schema.go`, with rows as
in `internal/db/models.go`.  Timestamps are modelled as `Nat`. -/

/-- A row of the `symbols` table (`db.Symbol` in `models.go`). -/
structure Symbol where
  id : String
  name : String
  kind : String
  file : String
  line : Nat
  column : Nat
  endLine : Option Nat
  endColumn : Option Nat
  scope : String
  signature : String
  documentation : String
  language : String
  source : String
  createdAt : Nat
deriving DecidableEq


/-- A row of the `calls` table (`db.Call`), without the autoincrement id. -/
structure Call where
  callerID : String
  calleeID : String
  file : String
  line : Nat
  column : Nat
deriving DecidableEq


/-- A row of the `type_hierarchy` table (`db.TypeHierarchy`), without the
autoincrement id. -/
structure TypeHierarchy where
  childID : String
  parentID : String
  relationship : String
deriving DecidableEq


/-- A row of the `file_meta` table (`db.FileMeta`). -/
structure FileMeta where
  path : String
  modTime : Nat
  language : String
deriving DecidableEq


/-- The whole store: the four tables as row lists. -/
structure DB where
  symbols : List Symbol
  calls : List Call
  typeHier : List TypeHierarchy
  fileMeta : List FileMeta
deriving DecidableEq


/-!  Write operations of `internal/db/manager.go`. -/

/-- `InsertSymbol`: `INSERT OR REPLACE INTO symbols` — the row with the
same primary key `id` (if any) is deleted and the new row inserted. -/
def InsertSymbol (db : DB) (s : Symbol) : DB :=
  { db with symbols := db.symbols.filter (fun r => r.id != s.id) ++ [s] }


/-- `InsertCall`: plain `INSERT INTO calls`. -/
def InsertCall (db : DB) (c : Call) : DB :=
  { db with calls := db.calls ++ [c] }


/-- `InsertTypeHierarchy`: plain `INSERT INTO type_hierarchy`. -/
def InsertTypeHierarchy (db : DB) (th : TypeHierarchy) : DB :=
  { db with typeHier := db.typeHier ++ [th] }


/-- `UpdateFileMeta`: `INSERT OR REPLACE INTO file_meta` keyed by path. -/
def UpdateFileMeta (db : DB) (path : String) (modTime : Nat)
    (language : String) : DB :=
  { db with fileMeta := db.fileMeta.filter (fun m => m.path != path) ++
      [{ path := path, modTime := modTime, language := language }] }


/-- `ClearAll`: `DELETE FROM` every table (forced full rebuild). -/
def ClearAll (_db : DB) : DB :=
  { symbols := [], calls := [], typeHier := [], fileMeta := [] }


/-- `ClearCalls`: deletes the calls whose `caller_id` is the id of a
symbol of the given language
(`DELETE FROM calls WHERE caller_id IN (SELECT id FROM symbols WHERE
language = ?)`). -/
def ClearCalls (db : DB) (language : String) : DB :=
  { db with calls := db.calls.filter (fun c =>
      !(db.symbols.any (fun s => s.id == c.callerID &&
        s.language == language))) }


/-!  Read operations of `internal/db/manager.go`. -/

/-- The optional `language IN (...)` filter: a `nil`/empty slice means no
filtering. -/
def langOk (languages : List String) (lang : String) : Bool :=
  languages.isEmpty || languages.contains lang


/-- The three `LIKE` patterns of `GetCallers` applied to a `callee_id`:
`'%#' || name`, `'%#%.' || name || '(%'`, `'%.' || name`. -/
def callerPatternMatch (symbolName calleeID : String) : Bool :=
  likeMatch ("%#" ++ symbolName) calleeID ||
  likeMatch ("%#%." ++ symbolName ++ "(%") calleeID ||
  likeMatch ("%." ++ symbolName) calleeID


/-- The flexible name matching of `GetSymbolByName` / `GetCallees`
(`name = ? OR name LIKE ? || '(%' OR name LIKE '%.' || ? || '(%'`).
SQL `=` on TEXT uses the BINARY collation, hence exact equality. -/
def flexNameMatch (query stored : String) : Bool :=
  stored == query ||
  likeMatch (query ++ "(%") stored ||
  likeMatch ("%." ++ query ++ "(%") stored


/-- The `ORDER BY file, line` comparison on symbols. -/
def symbolLe (s t : Symbol) : Bool :=
  decide (s.file < t.file) || (s.file == t.file && decide (s.line ≤ t.line))


/-- A call-site triple, the `GROUP BY` key of `GetCallers`/`GetCallees`. -/
structure SiteKey where
  file : String
  line : Nat
  column : Nat
deriving DecidableEq


instance : BEq SiteKey := ⟨fun a b => decide (a = b)⟩


instance : LawfulBEq SiteKey where
  eq_of_beq h := of_decide_eq_true h
  rfl := by simp [BEq.beq]


/-- A result row of `GetCallers`: the caller symbol plus the concrete
call-site coordinates. -/
structure CallerInfo where
  sym : Symbol
  callFile : String
  callLine : Nat
  callColumn : Nat
deriving DecidableEq


/-- A result row of `GetCallees`: the called symbol plus the concrete
call-site coordinates. -/
structure CalleeInfo where
  sym : Symbol
  callFile : String
  callLine : Nat
  callColumn : Nat
deriving DecidableEq


/-- The `ORDER BY c.file, c.line` comparison on caller rows. -/
def callerRowLe (a b : CallerInfo) : Bool :=
  decide (a.callFile < b.callFile) ||
    (a.callFile == b.callFile && decide (a.callLine ≤ b.callLine))


/-- The `ORDER BY c.file, c.line` comparison on callee rows. -/
def calleeRowLe (a b : CalleeInfo) : Bool :=
  decide (a.callFile < b.callFile) ||
    (a.callFile == b.callFile && decide (a.callLine ≤ b.callLine))


/-- `GetCallers`: join `calls` to `symbols` on `caller_id`, keep rows
whose `callee_id` matches one of the three `LIKE` patterns, optionally
filter by the caller language, group by call-site triple and order by
call file and line. -/
def GetCallers (db : DB) (symbolName : String)
    (languages : List String) : List CallerInfo :=
  let rows := db.calls.flatMap (fun c =>
    db.symbols.filterMap (fun s =>
      if s.id == c.callerID && callerPatternMatch symbolName c.calleeID &&
          langOk languages s.language then
        some { sym := s, callFile := c.file, callLine := c.line,
               callColumn := c.column }
      else none))
  sortLe callerRowLe
    (dedupBy (fun r => SiteKey.mk r.callFile r.callLine r.callColumn) rows)


/-- `GetCallees`: join `calls` to `symbols` on `callee_id` and to the
caller symbol on `caller_id`, keep rows whose caller name matches the
flexible patterns, group by call-site triple and order by call file and
line. -/
def GetCallees (db : DB) (symbolName : String)
    (languages : List String) : List CalleeInfo :=
  let rows := db.calls.flatMap (fun c =>
    db.symbols.flatMap (fun s =>
      db.symbols.filterMap (fun caller =>
        if s.id == c.calleeID && caller.id == c.callerID &&
            flexNameMatch symbolName caller.name &&
            langOk languages s.language then
          some { sym := s, callFile := c.file, callLine := c.line,
                 callColumn := c.column }
        else none)))
  sortLe calleeRowLe
    (dedupBy (fun r => SiteKey.mk r.callFile r.callLine r.callColumn) rows)


/-- `GetSymbolByName`: flexible name matching with optional language
filter, ordered by file and line. -/
def GetSymbolByName (db : DB) (name : String)
    (languages : List String) : List Symbol :=
  sortLe symbolLe (db.symbols.filter (fun s =>
    flexNameMatch name s.name && langOk languages s.language))


/-- `GetImplementationsByName`: join `type_hierarchy` to the child symbol
on `child_id` and to the parent symbol on `parent_id`, keeping rows whose
parent symbol name equals the query; ordered by file and line.  An edge
whose `parent_id` is not the id of any stored symbol produces no row. -/
def GetImplementationsByName (db : DB) (typeName : String) : List Symbol :=
  sortLe symbolLe (db.typeHier.flatMap (fun th =>
    db.symbols.flatMap (fun s =>
      db.symbols.filterMap (fun parent =>
        if s.id == th.childID && parent.id == th.parentID &&
            parent.name == typeName then some s
        else none))))


/-- Outcome of scanning a single row from the driver, distinguishing
`sql.ErrNoRows` from a genuine read failure. -/
inductive RowReadResult (α : Type) where
  | found (a : α)
  | noRows
  | readFailure (msg : String)
deriving DecidableEq


/-- The row produced by the `SELECT ... FROM file_meta WHERE path = ?` of
`GetFileMeta` on a store: the first row with that path, or `noRows`. -/
def fileMetaScan (db : DB) (path : String) : RowReadResult FileMeta :=
  match db.fileMeta.find? (fun m => m.path == path) with
  | some fm => RowReadResult.found fm
  | none => RowReadResult.noRows


/-- `GetFileMeta`: maps `sql.ErrNoRows` to `(nil, nil)` — absence without
error — and any other scan failure to an error. -/
def GetFileMeta (r : RowReadResult FileMeta) :
    Except String (Option FileMeta) :=
  match r with
  | RowReadResult.found fm => Except.ok (some fm)
  | RowReadResult.noRows => Except.ok none
  | RowReadResult.readFailure e => Except.error e


/-!  The LSP symbol-kind collapse of `internal/lsp` (`SymbolKindToString`)
and the extension map of `internal/lsp/adapters` (`LanguageFromExtension`,
used by `Scanner.Scan`). -/

/-- `SymbolKindToString`: the fixed collapse from the 26-value LSP
symbol-kind enumeration to the stored kind string; every number not
listed in the switch falls through to `unknown`. -/
def SymbolKindToString (k : Int) : String :=
  if k = 1 then "file"
  else if k = 2 ∨ k = 3 ∨ k = 4 then "module"
  else if k = 5 ∨ k = 23 then "class"
  else if k = 6 then "method"
  else if k = 7 ∨ k = 8 then "field"
  else if k = 9 then "constructor"
  else if k = 10 then "enum"
  else if k = 11 then "interface"
  else if k = 12 then "function"
  else if k = 13 then "variable"
  else if k = 14 then "constant"
  else if k = 22 then "enum_member"
  else if k = 26 then "type_parameter"
  else "unknown"


/-- `LanguageFromExtension`: the switch over lower-cased file extensions;
extensions outside the table map to the empty string. -/
def LanguageFromExtension (ext : String) : String :=
  if ext = ".go" then "go"
  else if ext = ".py" ∨ ext = ".pyw" then "python"
  else if ext = ".ts" ∨ ext = ".mts" ∨ ext = ".cts" then "typescript"
  else if ext = ".tsx" ∨ ext = ".jsx" then "typescriptreact"
  else if ext = ".js" ∨ ext = ".mjs" ∨ ext = ".cjs" then "typescript"
  else if ext = ".java" then "java"
  else if ext = ".swift" then "swift"
  else if ext = ".rs" then "rust"
  else if ext = ".ml" ∨ ext = ".mli" then "ocaml"
  else ""


/-- Characters after the last dot of a character list, if any dot
occurs. -/
def lastDotTail : List Char → Option (List Char)
  | [] => none
  | c :: cs =>
    match lastDotTail cs with
    | some t => some t
    | none => if c == '.' then some cs else none


/-- `filepath.Ext`: the suffix beginning at the final dot in the final
slash-separated element of the path, empty if there is no dot. -/
def extOf (path : String) : String :=
  let base := path.data.foldl
    (fun acc c => if c == '/' then [] else acc ++ [c]) []
  match lastDotTail base with
  | none => ""
  | some t => String.mk ('.' :: t)


/-- ASCII lower-casing of a string (`strings.ToLower`; the recognised
extensions are all ASCII). -/
def toLowerAscii (s : String) : String :=
  String.mk (s.data.map asciiLower)


/-- A filesystem entry visited by `filepath.Walk`, as seen by the
`Scanner.Scan` callback. -/
structure WalkEntry where
  path : String
  relPath : String
  isDir : Bool
deriving DecidableEq


/-- A discovered source file (`indexer.FileInfo`). -/
structure FileInfo where
  path : String
  language : String
  relPath : String
deriving DecidableEq


/-- `Scanner.Scan`: walks the entries, drops ignored paths and
directories, keeps only files whose lower-cased extension maps to a
supported language, and returns the list with a `nil` error.  A file
whose extension is unsupported is silently skipped — the callback
returns `nil`, not an error. -/
def Scan (shouldIgnore : String → Bool) (entries : List WalkEntry) :
    Except String (List FileInfo) :=
  Except.ok (entries.filterMap (fun e =>
    if shouldIgnore e.relPath then none
    else if e.isDir then none
    else
      let language := LanguageFromExtension (toLowerAscii (extOf e.path))
      if language == "" then none
      else some { path := e.path, language := language,
                  relPath := e.relPath }))


/-!  The indexing pipeline of `internal/indexer/indexer.go` and the
tree-sitter fallback of `internal/indexer/treesitter_calls.go`.  LSP
responses and parsed trees are inputs to the pipeline, so they appear
here as data carried by a per-file job; everything the pipeline does with
them is translated from the source. -/

/-- An LSP position (0-indexed line and character). -/
structure Position where
  line : Nat
  character : Nat
deriving DecidableEq


/-- An LSP range; the `End` field of the Go struct is named `endPos`. -/
structure Range where
  start : Position
  endPos : Position
deriving DecidableEq


mutual

/-- An LSP `DocumentSymbol`: name, detail, numeric symbol kind, full
range, selection range and hierarchical children. -/
inductive DocumentSymbol : Type where
  | mk (name : String) (detail : String) (kind : Int)
       (range : Range) (selectionRange : Range) (children : DocForest)

/-- A list of document symbols (separate inductive so the mutual
recursion over the hierarchy is structural). -/
inductive DocForest : Type where
  | nil
  | cons (head : DocumentSymbol) (tail : DocForest)

end

/-- The symbol id built by both `storeSymbols` and `nodeToSymbol`:
`relPath#name`, or `relPath#scope.name` when a scope is present. -/
def mkSymbolID (relPath scope name : String) : String :=
  if scope == "" then relPath ++ "#" ++ name
  else relPath ++ "#" ++ scope ++ "." ++ name


mutual

/-- The row built by `storeSymbols` for one document symbol, followed by
the rows of its children (scope path extended by the symbol name), in
the order the Go code inserts them. -/
def storeSymbolRows (file : FileInfo) (now : Nat) (scope : String) :
    DocumentSymbol → List Symbol
  | DocumentSymbol.mk name detail kind range selectionRange children =>
    let sym : Symbol :=
      { id := mkSymbolID file.relPath scope name
        name := name
        kind := SymbolKindToString kind
        file := file.path
        line := selectionRange.start.line + 1
        column := selectionRange.start.character
        endLine := some (range.endPos.line + 1)
        endColumn := some range.endPos.character
        scope := scope
        signature := detail
        documentation := ""
        language := file.language
        source := "lsp"
        createdAt := now }
    let childScope := if scope == "" then name else scope ++ "." ++ name
    sym :: storeForestRows file now childScope children

/-- The rows built by `storeSymbols` for a list of document symbols. -/
def storeForestRows (file : FileInfo) (now : Nat) (scope : String) :
    DocForest → List Symbol
  | DocForest.nil => []
  | DocForest.cons s rest =>
    storeSymbolRows file now scope s ++ storeForestRows file now scope rest

end

/-- Sequential `InsertSymbol` of a list of rows, in order. -/
def insertSymbolList (db : DB) (rows : List Symbol) : DB :=
  rows.foldl InsertSymbol db


/-- The name, kind, signature, scope and node positions that a
per-language tree-sitter extractor hands to `nodeToSymbol`. -/
structure CstRaw where
  name : String
  kind : String
  signature : String
  scope : String
  startRow : Nat
  startCol : Nat
  endRow : Nat
  endCol : Nat
deriving DecidableEq


/-- `nodeToSymbol` of the tree-sitter fallback indexer: drops nameless
nodes, otherwise builds the symbol row with `source = "tree-sitter"`. -/
def nodeToSymbol (file : FileInfo) (now : Nat) (r : CstRaw) :
    Option Symbol :=
  if r.name == "" then none
  else some
    { id := mkSymbolID file.relPath r.scope r.name
      name := r.name
      kind := r.kind
      file := file.path
      line := r.startRow + 1
      column := r.startCol
      endLine := some (r.endRow + 1)
      endColumn := some r.endCol
      scope := r.scope
      signature := r.signature
      documentation := ""
      language := file.language
      source := "tree-sitter"
      createdAt := now }


/-- A per-file unit of pipeline work: the discovered file, its current
modification time (from `os.Stat`), the LSP document-symbol response
(`none` when the LSP request failed) and the tree-sitter extraction
result (`none` when parsing failed). -/
structure FileJob where
  info : FileInfo
  mtime : Nat
  lspSymbols : Option DocForest
  cstSymbols : Option (List CstRaw)


/-- `shouldSkipFile`: skip when metadata exists and the current
modification time is not after the stored one (`!current.After(stored)`,
i.e. `current ≤ stored`). -/
def shouldSkipFile (db : DB) (j : FileJob) : Bool :=
  match db.fileMeta.find? (fun m => m.path == j.info.path) with
  | none => false
  | some meta => decide (j.mtime ≤ meta.modTime)


/-- One iteration of the per-file loop of `IndexProject`: skip unchanged
files on non-forced runs; otherwise store the LSP symbols and update the
file metadata, falling back to the tree-sitter extractor when LSP failed;
when both fail the file is reported and nothing is written. -/
def indexFileStep (db : DB) (j : FileJob) (now : Nat) (force : Bool) :
    DB :=
  if !force && shouldSkipFile db j then db
  else
    match j.lspSymbols with
    | some forest =>
      UpdateFileMeta
        (insertSymbolList db (storeForestRows j.info now "" forest))
        j.info.path now j.info.language
    | none =>
      match j.cstSymbols with
      | some raws =>
        UpdateFileMeta
          (insertSymbolList db (raws.filterMap (nodeToSymbol j.info now)))
          j.info.path now j.info.language
      | none => db


/-- `IndexProject` restricted to what touches the `symbols` and
`file_meta` tables: clear everything when forced, then run the per-file
loop over every job.  The language grouping of the Go code only changes
the processing order, and the subsequent call-graph pass writes only the
`calls` table. -/
def IndexProject (db : DB) (jobs : List FileJob) (now : Nat)
    (force : Bool) : DB :=
  let db0 := if force then ClearAll db else db
  jobs.foldl (fun d j => indexFileStep d j now force) db0


/-- The resolution step of `IndexHierarchyTreeSitter` for one extracted
relationship: look the parent display name up with the file language,
then without a language filter; if both lookups are empty the edge is
dropped (`continue`), otherwise it is inserted with the first matching
symbol id as parent. -/
def resolveHierarchyRel (db : DB) (language : String)
    (rel : TypeHierarchy) : DB :=
  let byLang := GetSymbolByName db rel.parentID [language]
  let parentSymbols :=
    if byLang.isEmpty then GetSymbolByName db rel.parentID [] else byLang
  match parentSymbols with
  | [] => db
  | p :: _ => InsertTypeHierarchy db { rel with parentID := p.id }


/-- The insertion loop of `IndexHierarchyTreeSitter` over the extracted
relationships of one file. -/
def IndexHierarchyTreeSitter (db : DB) (language : String)
    (rels : List TypeHierarchy) : DB :=
  rels.foldl (fun d rel => resolveHierarchyRel d language rel) db


/-- The empty store. -/
def emptyDB : DB := { symbols := [], calls := [], typeHier := [], fileMeta := [] }


/-- A symbol row used by concrete examples. -/
def symA1 : Symbol :=
  { id := "x.go#f", name := "f", kind := "function", file := "/r/x.go",
    line := 3, column := 0, endLine := some 5, endColumn := some 1,
    scope := "", signature := "func f() int", documentation := "",
    language := "go", source := "lsp", createdAt := 1 }


/-- A second insert with the same id but different attributes. -/
def symA2 : Symbol :=
  { id := "x.go#f", name := "f", kind := "function", file := "/r/x.go",
    line := 7, column := 0, endLine := some 11, endColumn := some 1,
    scope := "", signature := "func f() string", documentation := "",
    language := "go", source := "tree-sitter", createdAt := 2 }


/-- A Python caller symbol for the C10 witness. -/
def pySym : Symbol :=
  { id := "tool.py#run", name := "run", kind := "function",
    file := "/r/tool.py", line := 1, column := 0, endLine := some 9,
    endColumn := some 0, scope := "", signature := "def run():",
    documentation := "", language := "python", source := "lsp",
    createdAt := 1 }


/-- A call made by the Python symbol into a Go symbol, sitting in a Go
file. -/
def crossCall : Call :=
  { callerID := "tool.py#run", calleeID := "x.go#f", file := "/r/x.go",
    line := 4, column := 2 }


/-- Store with a Go symbol, a Python caller and the cross-language
edge. -/
def crossDB : DB :=
  { symbols := [symA1, pySym], calls := [crossCall], typeHier := [],
    fileMeta := [] }


/-- A store that has metadata only for an unrelated path. -/
def metaDB : DB :=
  { symbols := [], calls := [], typeHier := [],
    fileMeta := [{ path := "/r/a.go", modTime := 10, language := "go" }] }


/-- The kind strings actually produced by `SymbolKindToString`. -/
def lspKindStrings : List String :=
  ["file", "module", "class", "method", "field", "constructor", "enum",
   "interface", "function", "variable", "constant", "enum_member",
   "type_parameter", "unknown"]


/-!  Claim C5: caller/callee queries return at most one row per
call-site triple. -/

/-- The enclosing function of the overlapping-callees example. -/
def processSym : Symbol :=
  { id := "main.go#process", name := "process", kind := "function",
    file := "/r/main.go", line := 10, column := 5, endLine := some 20,
    endColumn := some 1, scope := "",
    signature := "func process(r Reader)", documentation := "",
    language := "go", source := "lsp", createdAt := 1 }


/-- The call site resolving to the interface method. -/
def readIfaceCall : Call :=
  { callerID := "main.go#process", calleeID := "io.go#Reader.Read",
    file := "/r/main.go", line := 12, column := 7 }


/-- The same call site resolving to the implementation method. -/
def readImplCall : Call :=
  { callerID := "main.go#process", calleeID := "file.go#FileReader.Read",
    file := "/r/main.go", line := 12, column := 7 }


/-- Store with two call edges at one call-site triple. -/
def overlapDB : DB :=
  { symbols := [processSym], calls := [readIfaceCall, readImplCall],
    typeHier := [], fileMeta := [] }


/-!  Claim C4: the three-pattern matching of `GetCallers`.  The claim
describes the patterns as literal suffix/containment tests; the code
runs them through SQL `LIKE`, where `_` matches any single character and
`%` any sequence, and ASCII letters compare case-insensitively.  For
names containing `_` (common in identifiers) the two disagree. -/

/-- Boolean list-prefix test. -/
def isPrefixL : List Char → List Char → Bool
  | [], _ => true
  | _ :: _, [] => false
  | a :: as, b :: bs => a == b && isPrefixL as bs


/-- Boolean substring test. -/
def containsSubL (sub l : List Char) : Bool :=
  (tailsOf l).any (fun t => isPrefixL sub t)


/-- Boolean list-suffix test. -/
def isSuffixL (suffix l : List Char) : Bool :=
  (tailsOf l).any (fun t => t == suffix)


/-- The callee-id condition exactly as the claim words it: the callee id
ends with `#name`, or contains a `#` followed later by `.name(`, or ends
with `.name` — literal characters, no wildcards. -/
def specCalleeMatch (n calleeID : String) : Bool :=
  isSuffixL ("#" ++ n).data calleeID.data ||
  (tailsOf calleeID.data).any (fun t =>
    match t with
    | '#' :: rest => containsSubL ("." ++ n ++ "(").data rest
    | _ => false) ||
  isSuffixL ("." ++ n).data calleeID.data


/-- The caller of the underscore counterexample. -/
def uCaller : Symbol :=
  { id := "a.go#caller", name := "caller", kind := "function",
    file := "/r/a.go", line := 3, column := 5, endLine := some 9,
    endColumn := some 1, scope := "", signature := "func caller()",
    documentation := "", language := "go", source := "lsp",
    createdAt := 1 }


/-- An edge whose callee id ends in `myxfunc` — no underscore. -/
def uEdge : Call :=
  { callerID := "a.go#caller", calleeID := "b.go#myxfunc",
    file := "/r/a.go", line := 5, column := 3 }


/-- Store for the underscore counterexample. -/
def uDB : DB :=
  { symbols := [uCaller], calls := [uEdge], typeHier := [],
    fileMeta := [] }


/-- The Java method whose stored name embeds the parameter list. -/
def javaMainSym : Symbol :=
  { id := "Main.java#Main.main(String[])", name := "main(String[])",
    kind := "method", file := "/r/Main.java", line := 3, column := 23,
    endLine := some 6, endColumn := some 5, scope := "Main",
    signature := "void main(String[] args)", documentation := "",
    language := "java", source := "lsp", createdAt := 1 }


/-- The calling method. -/
def javaRunSym : Symbol :=
  { id := "Main.java#Main.run()", name := "run()", kind := "method",
    file := "/r/Main.java", line := 8, column := 9, endLine := some 12,
    endColumn := some 5, scope := "Main", signature := "void run()",
    documentation := "", language := "java", source := "lsp",
    createdAt := 1 }


/-- The call edge from `run()` into `main(String[])`. -/
def javaCall : Call :=
  { callerID := "Main.java#Main.run()",
    calleeID := "Main.java#Main.main(String[])", file := "/r/Main.java",
    line := 10, column := 8 }


/-- Store for the Java flexible-matching example. -/
def javaDB : DB :=
  { symbols := [javaMainSym, javaRunSym], calls := [javaCall],
    typeHier := [], fileMeta := [] }


/-!  Claim C1: unresolved type-edge parents.  The spec says such edges
are stored under the parent display name and retrievable through
`implementations(parent_name)`.  The tree-sitter hierarchy indexer
instead drops an edge whose parent resolves to no stored symbol, and
`GetImplementationsByName` joins `parent_id` against stored symbol ids,
so a display-name parent would produce no row anyway. -/

/-- The child type of the hierarchy examples. -/
def fooChildSym : Symbol :=
  { id := "a.go#Foo", name := "Foo", kind := "struct",
    file := "/r/a.go", line := 2, column := 5, endLine := some 6,
    endColumn := some 1, scope := "", signature := "type Foo struct",
    documentation := "", language := "go", source := "lsp",
    createdAt := 1 }


/-- An extracted relationship whose parent name `Bar` matches no stored
symbol. -/
def unresolvedRel : TypeHierarchy :=
  { childID := "a.go#Foo", parentID := "Bar",
    relationship := "implements" }


/-- Store containing only the child symbol. -/
def childOnlyDB : DB :=
  { symbols := [fooChildSym], calls := [], typeHier := [],
    fileMeta := [] }


/-- The parent interface used by the resolvable example. -/
def barParentSym : Symbol :=
  { id := "b.go#Bar", name := "Bar", kind := "interface",
    file := "/r/b.go", line := 1, column := 5, endLine := some 4,
    endColumn := some 1, scope := "",
    signature := "type Bar interface", documentation := "",
    language := "go", source := "lsp", createdAt := 1 }


/-- Store containing both the child and the parent symbol. -/
def resolvableDB : DB :=
  { symbols := [fooChildSym, barParentSym], calls := [], typeHier := [],
    fileMeta := [] }


/-- The resolved edge of the witness. -/
def resolvedRel : TypeHierarchy :=
  { childID := "a.go#Foo", parentID := "b.go#Bar",
    relationship := "implements" }


/-!  Claim C8: files of unsupported languages.  The spec says they are
rejected with a typed error; the scanner in fact drops them silently —
the walk callback returns `nil` — so they never reach the indexer and no
rows are written, but no error of any kind is produced. -/

/-- A supported Go file entry. -/
def goEntry : WalkEntry :=
  { path := "/r/main.go", relPath := "main.go", isDir := false }


/-- A file entry with an extension outside the supported table. -/
def xyzEntry : WalkEntry :=
  { path := "/r/main.xyz", relPath := "main.xyz", isDir := false }


/-!  Claim C2: extraction source tags.  The spec says the fallback
extractor stores `source = "cst"`; the code stores the string
`"tree-sitter"`. -/

/-- The raw extraction result of the fallback example. -/
def cstRawX : CstRaw :=
  { name := "helper", kind := "function",
    signature := "func helper()", scope := "", startRow := 4,
    startCol := 0, endRow := 8, endCol := 1 }


/-- The file of the fallback example. -/
def cstFile : FileInfo :=
  { path := "/r/c.go", language := "go", relPath := "c.go" }


/-- A job whose LSP request failed, with a tree-sitter result. -/
def cstJob : FileJob :=
  { info := cstFile, mtime := 5, lspSymbols := none,
    cstSymbols := some [cstRawX] }


/-- The symbol row the fallback stores for that job. -/
def cstStoredSym : Symbol :=
  { id := "c.go#helper", name := "helper", kind := "function",
    file := "/r/c.go", line := 5, column := 0, endLine := some 9,
    endColumn := some 1, scope := "", signature := "func helper()",
    documentation := "", language := "go", source := "tree-sitter",
    createdAt := 7 }


/-- The skipped file of the C6 witness. -/
def skipInfo : FileInfo :=
  { path := "/r/a.go", language := "go", relPath := "a.go" }


/-- The job for the unchanged file: current mtime 5, stored 10. -/
def skipJob : FileJob :=
  { info := skipInfo, mtime := 5, lspSymbols := none,
    cstSymbols := none }


/-- A second, changed file processed in the same run. -/
def otherInfo : FileInfo :=
  { path := "/r/b.go", language := "go", relPath := "b.go" }


/-- An LSP document symbol stored for the changed file. -/
def otherDoc : DocumentSymbol :=
  DocumentSymbol.mk "g" "func g()" 12
    { start := { line := 1, character := 0 },
      endPos := { line := 3, character := 1 } }
    { start := { line := 1, character := 5 },
      endPos := { line := 1, character := 6 } }
    DocForest.nil


/-- The job for the changed file. -/
def otherJob : FileJob :=
  { info := otherInfo, mtime := 99,
    lspSymbols := some (DocForest.cons otherDoc DocForest.nil),
    cstSymbols := none }


/-- The symbol stored for the unchanged file on the previous run. -/
def aStoredSym : Symbol :=
  { id := "a.go#f", name := "f", kind := "function",
    file := "/r/a.go", line := 2, column := 5, endLine := some 4,
    endColumn := some 1, scope := "", signature := "func f()",
    documentation := "", language := "go", source := "lsp",
    createdAt := 1 }


/-- The stored metadata of the unchanged file. -/
def aMeta : FileMeta :=
  { path := "/r/a.go", modTime := 10, language := "go" }


/-- The store before the C6 witness run. -/
def c6DB : DB :=
  { symbols := [aStoredSym], calls := [], typeHier := [],
    fileMeta := [aMeta] }


/-- Membership is preserved by `insertLe`. -/
theorem mem_insertLe (le : α → α → Bool) (x a : α) (l : List α) :
    a ∈ insertLe le x l ↔ a = x ∨ a ∈ l := by
  induction l with
  | nil => simp [insertLe]
  | cons y ys ih =>
    simp only [insertLe]
    split
    · rw [List.mem_cons, ih, List.mem_cons]
      tauto
    · simp [List.mem_cons]


/-- Membership is preserved by `sortLe`. -/
theorem mem_sortLe (le : α → α → Bool) (a : α) (l : List α) :
    a ∈ sortLe le l ↔ a ∈ l := by
  induction l with
  | nil => simp [sortLe]
  | cons y ys ih =>
    simp only [sortLe, mem_insertLe, List.mem_cons, ih]


/-- Counting a predicate is preserved by `insertLe`. -/
theorem countP_insertLe (le : α → α → Bool) (p : α → Bool) (x : α)
    (l : List α) :
    (insertLe le x l).countP p = (x :: l).countP p := by
  induction l with
  | nil => simp [insertLe]
  | cons y ys ih =>
    simp only [insertLe]
    split
    · simp only [List.countP_cons, ih]
      omega
    · simp [List.countP_cons]


/-- Counting a predicate is preserved by `sortLe`. -/
theorem countP_sortLe (le : α → α → Bool) (p : α → Bool) (l : List α) :
    (sortLe le l).countP p = l.countP p := by
  induction l with
  | nil => simp [sortLe]
  | cons y ys ih =>
    simp only [sortLe, countP_insertLe, List.countP_cons, ih]


/-- Every row surviving deduplication was in the input. -/
theorem mem_of_mem_dedupByAux (key : α → κ) [BEq κ] (a : α)
    (l : List α) (seen : List κ) (h : a ∈ dedupByAux key l seen) :
    a ∈ l := by
  induction l generalizing seen with
  | nil => simp [dedupByAux] at h
  | cons x xs ih =>
    simp only [dedupByAux] at h
    split at h
    · exact List.mem_cons_of_mem _ (ih _ h)
    · rcases List.mem_cons.mp h with h1 | h1
      · exact h1 ▸ List.mem_cons_self _ _
      · exact List.mem_cons_of_mem _ (ih _ h1)


/-- After deduplication by key, at most one row of any key group remains
for a key not yet marked as seen, and none for an already-seen key. -/
theorem countP_dedupByAux_le (key : α → κ) [BEq κ] [LawfulBEq κ]
    (k : κ) (l : List α) (seen : List κ) :
    (dedupByAux key l seen).countP (fun a => key a == k) ≤
      (if seen.contains k then 0 else 1) := by
  induction l generalizing seen with
  | nil => simp [dedupByAux]
  | cons x xs ih =>
    simp only [dedupByAux]
    split
    · exact ih seen
    · rename_i hseenx
      simp only [List.countP_cons]
      by_cases hk : (key x == k) = true
      · have hkk : key x = k := eq_of_beq hk
        have hsk : seen.contains k = false := by
          rw [← hkk]
          simpa using hseenx
        have h2 := ih (key x :: seen)
        rw [show (key x :: seen).contains k = true by
          rw [List.contains_cons]
          simp [hkk]] at h2
        have h3 : (dedupByAux key xs (key x :: seen)).countP
            (fun a => key a == k) = 0 := by
          simpa using h2
        have hnot : k ∉ seen := by simpa using hsk
        simp [hk, h3, hnot]
      · have hb : (key x == k) = false := by simpa using hk
        have h2 := ih (key x :: seen)
        rw [show (key x :: seen).contains k = seen.contains k by
          rw [List.contains_cons]
          have hkx : (k == key x) = false := by
            refine beq_eq_false_iff_ne.mpr ?_
            intro h
            exact hk (by simp [h.symm])
          simp [hkx]] at h2
        simp only [hb]
        simpa using h2


/-- A key group that is present in the input and not yet seen keeps a
representative after deduplication. -/
theorem exists_mem_dedupByAux (key : α → κ) [BEq κ] [LawfulBEq κ]
    (k : κ) (l : List α) (seen : List κ)
    (hseen : seen.contains k = false)
    (hex : ∃ a ∈ l, key a = k) :
    ∃ b ∈ dedupByAux key l seen, key b = k := by
  induction l generalizing seen with
  | nil => simp at hex
  | cons x xs ih =>
    simp only [dedupByAux]
    rcases hex with ⟨a, ha, hak⟩
    rcases List.mem_cons.mp ha with rfl | hmem
    · have hca : seen.contains (key a) = false := by rw [hak]; exact hseen
      rw [hca]
      simp only [Bool.false_eq_true, if_false]
      exact ⟨a, List.mem_cons_self _ _, hak⟩
    · by_cases hxk : key x = k
      · have hcx : seen.contains (key x) = false := by rw [hxk]; exact hseen
        rw [hcx]
        simp only [Bool.false_eq_true, if_false]
        exact ⟨x, List.mem_cons_self _ _, hxk⟩
      · have hs2 : (key x :: seen).contains k = false := by
          rw [List.contains_cons]
          have hkx : (k == key x) = false :=
            beq_eq_false_iff_ne.mpr (fun h => hxk h.symm)
          simp only [hkx, Bool.false_or]
          exact hseen
        split
        · exact ih seen hseen ⟨a, hmem, hak⟩
        · rcases ih (key x :: seen) hs2 ⟨a, hmem, hak⟩ with ⟨b, hb, hbk⟩
          exact ⟨b, List.mem_cons_of_mem _ hb, hbk⟩


/-!  Shared lemmas about the embedding, used by several claim proofs. -/

/-- One representative per key group survives: wrapper for `dedupBy`. -/
theorem countP_dedupBy_le (key : α → κ) [BEq κ] [LawfulBEq κ]
    (k : κ) (l : List α) :
    (dedupBy key l).countP (fun a => key a == k) ≤ 1 := by
  have h := countP_dedupByAux_le key k l []
  simpa [dedupBy] using h


/-- Rows surviving `dedupBy` come from the input. -/
theorem mem_of_mem_dedupBy (key : α → κ) [BEq κ] (a : α) (l : List α)
    (h : a ∈ dedupBy key l) : a ∈ l :=
  mem_of_mem_dedupByAux key a l [] h


/-- A key group present in the input keeps a representative. -/
theorem exists_mem_dedupBy (key : α → κ) [BEq κ] [LawfulBEq κ]
    (k : κ) (l : List α) (hex : ∃ a ∈ l, key a = k) :
    ∃ b ∈ dedupBy key l, key b = k :=
  exists_mem_dedupByAux key k l [] rfl hex


/-- Membership after `InsertSymbol`: a new row or an old row whose id
differs from the inserted one. -/
theorem mem_InsertSymbol (db : DB) (t : Symbol) (s : Symbol)
    (h : s ∈ (InsertSymbol db t).symbols) : s ∈ db.symbols ∨ s = t := by
  simp only [InsertSymbol] at h
  rcases List.mem_append.mp h with h1 | h1
  · exact Or.inl (List.mem_filter.mp h1).1
  · exact Or.inr (by simpa using h1)


/-- Membership after a sequence of `InsertSymbol`. -/
theorem mem_insertSymbolList (rows : List Symbol) (db : DB) (s : Symbol)
    (h : s ∈ (insertSymbolList db rows).symbols) :
    s ∈ db.symbols ∨ s ∈ rows := by
  induction rows generalizing db with
  | nil => exact Or.inl h
  | cons t ts ih =>
    rcases ih (InsertSymbol db t) (by simpa [insertSymbolList] using h) with
      h1 | h1
    · rcases mem_InsertSymbol db t s h1 with h2 | h2
      · exact Or.inl h2
      · exact Or.inr (h2 ▸ List.mem_cons_self _ _)
    · exact Or.inr (List.mem_cons_of_mem _ h1)


/-- `InsertSymbol` does not touch the other tables. -/
theorem InsertSymbol_fileMeta (db : DB) (t : Symbol) :
    (InsertSymbol db t).fileMeta = db.fileMeta := rfl


/-- `insertSymbolList` does not touch the other tables. -/
theorem insertSymbolList_fileMeta (rows : List Symbol) (db : DB) :
    (insertSymbolList db rows).fileMeta = db.fileMeta := by
  induction rows generalizing db with
  | nil => rfl
  | cons t ts ih => simpa [insertSymbolList] using ih (InsertSymbol db t)


mutual

/-- Every row produced by `storeSymbols` for one document symbol carries
`source = "lsp"`, the file path of the processed file, and an id that is
the relative path followed by a hash. -/
theorem storeSymbolRows_shape (file : FileInfo) (now : Nat)
    (scope : String) (d : DocumentSymbol) (s : Symbol)
    (h : s ∈ storeSymbolRows file now scope d) :
    s.source = "lsp" ∧ s.file = file.path ∧
      ∃ rest, s.id.data = file.relPath.data ++ '#' :: rest := by
  match d with
  | DocumentSymbol.mk name detail kind range selectionRange children =>
    rcases List.mem_cons.mp h with h1 | h1
    · subst h1
      refine ⟨rfl, rfl, ?_⟩
      simp only [mkSymbolID]
      split
      · exact ⟨name.data, by simp [String.data_append]⟩
      · exact ⟨(scope ++ "." ++ name).data, by simp [String.data_append]⟩
    · exact storeForestRows_shape file now _ children s h1

/-- Forest version of `storeSymbolRows_shape`. -/
theorem storeForestRows_shape (file : FileInfo) (now : Nat)
    (scope : String) (f : DocForest) (s : Symbol)
    (h : s ∈ storeForestRows file now scope f) :
    s.source = "lsp" ∧ s.file = file.path ∧
      ∃ rest, s.id.data = file.relPath.data ++ '#' :: rest := by
  match f with
  | DocForest.nil => exact absurd h (by simp [storeForestRows])
  | DocForest.cons d rest =>
    rcases List.mem_append.mp (by simpa [storeForestRows] using h) with
      h1 | h1
    · exact storeSymbolRows_shape file now scope d s h1
    · exact storeForestRows_shape file now scope rest s h1

end

/-- Every row produced by `nodeToSymbol` carries
`source = "tree-sitter"`, the file path of the processed file, and an id
that is the relative path followed by a hash. -/
theorem nodeToSymbol_shape (file : FileInfo) (now : Nat) (r : CstRaw)
    (s : Symbol) (h : nodeToSymbol file now r = some s) :
    s.source = "tree-sitter" ∧ s.file = file.path ∧
      ∃ rest, s.id.data = file.relPath.data ++ '#' :: rest := by
  simp only [nodeToSymbol] at h
  split at h
  · exact absurd h (by simp)
  · rcases Option.some.injEq _ _ ▸ h with rfl
    refine ⟨rfl, rfl, ?_⟩
    simp only [mkSymbolID]
    split
    · exact ⟨r.name.data, by simp [String.data_append]⟩
    · exact ⟨(r.scope ++ "." ++ r.name).data, by simp [String.data_append]⟩


/-- Membership in the symbols written by one per-file step: an old row,
or a fresh row for the processed file with an `lsp` or `tree-sitter`
source tag and a relative-path-hash id. -/
theorem indexFileStep_symbols_shape (d : DB) (j : FileJob) (now : Nat)
    (force : Bool) (s : Symbol)
    (h : s ∈ (indexFileStep d j now force).symbols) :
    s ∈ d.symbols ∨
      ((s.source = "lsp" ∨ s.source = "tree-sitter") ∧
        s.file = j.info.path ∧
        ∃ rest, s.id.data = j.info.relPath.data ++ '#' :: rest) := by
  simp only [indexFileStep] at h
  split at h
  · exact Or.inl h
  · split at h
    · rename_i forest heq
      simp only [UpdateFileMeta] at h
      rcases mem_insertSymbolList _ d s h with h1 | h1
      · exact Or.inl h1
      · rcases storeForestRows_shape j.info now "" forest s h1 with
          ⟨hsrc, hfile, hid⟩
        exact Or.inr ⟨Or.inl hsrc, hfile, hid⟩
    · split at h
      · rename_i raws heq
        simp only [UpdateFileMeta] at h
        rcases mem_insertSymbolList _ d s h with h1 | h1
        · exact Or.inl h1
        · rcases List.mem_filterMap.mp h1 with ⟨r, _, hr⟩
          rcases nodeToSymbol_shape j.info now r s hr with ⟨hsrc, hfile, hid⟩
          exact Or.inr ⟨Or.inr hsrc, hfile, hid⟩
      · exact Or.inl h


/-- Membership in the symbols of a full pipeline run: an original row or
a row written for one of the jobs. -/
theorem IndexProject_symbols_shape (jobs : List FileJob) (db : DB)
    (now : Nat) (force : Bool) (s : Symbol)
    (h : s ∈ (IndexProject db jobs now force).symbols) :
    s ∈ db.symbols ∨ ∃ j ∈ jobs,
      (s.source = "lsp" ∨ s.source = "tree-sitter") ∧
        s.file = j.info.path ∧
        ∃ rest, s.id.data = j.info.relPath.data ++ '#' :: rest := by
  have main : ∀ (js : List FileJob) (d : DB),
      s ∈ (js.foldl (fun d0 j => indexFileStep d0 j now force) d).symbols →
      s ∈ d.symbols ∨ ∃ j ∈ js,
        (s.source = "lsp" ∨ s.source = "tree-sitter") ∧
          s.file = j.info.path ∧
          ∃ rest, s.id.data = j.info.relPath.data ++ '#' :: rest := by
    intro js
    induction js with
    | nil => exact fun d hd => Or.inl hd
    | cons j0 js0 ih =>
      intro d hd
      rcases ih (indexFileStep d j0 now force) hd with h1 | h1
      · rcases indexFileStep_symbols_shape d j0 now force s h1 with h2 | h2
        · exact Or.inl h2
        · exact Or.inr ⟨j0, List.mem_cons_self _ _, h2⟩
      · rcases h1 with ⟨j, hj, hrest⟩
        exact Or.inr ⟨j, List.mem_cons_of_mem _ hj, hrest⟩
  simp only [IndexProject] at h
  split at h
  · rcases main jobs (ClearAll db) h with h1 | h1
    · exact absurd h1 (by simp [ClearAll])
    · exact Or.inr h1
  · exact main jobs db h


/-!  Claim C7: symbol insertion is an upsert by identity. -/

/-- Filtering for a key after filtering it away yields nothing. -/
theorem filter_keep_remove_nil (t : String) (f : α → String)
    (l : List α) :
    (l.filter (fun r => f r != t)).filter (fun r => f r == t) = [] := by
  induction l with
  | nil => rfl
  | cons x xs ih =>
    by_cases hx : f x = t
    · simp [List.filter_cons, hx, ih]
    · simp [List.filter_cons, hx, ih]


/-- C7: symbol insertion is an upsert by identity — after inserting two
symbols with the same id, exactly one row with that id exists and it is
the second insert, every attribute included. -/
theorem C7_upsert_by_identity (db : DB) (s1 s2 : Symbol)
    (h : s1.id = s2.id) :
    ((InsertSymbol (InsertSymbol db s1) s2).symbols.filter
      (fun r => r.id == s1.id)) = [s2] := by
  rw [h]
  simp only [InsertSymbol]
  rw [List.filter_append, filter_keep_remove_nil s2.id (fun r : Symbol => r.id)]
  simp


/-- Witness for C7 at a concrete double insert. -/
theorem C7_upsert_by_identity_witness :
    ((InsertSymbol (InsertSymbol emptyDB symA1) symA2).symbols.filter
      (fun r => r.id == symA1.id)) = [symA2] :=
  C7_upsert_by_identity emptyDB symA1 symA2 (by decide)


/-!  Claim C10: clearing calls for a language deletes exactly the edges
whose caller symbol has that language. -/

/-- C10: a stored call edge survives `ClearCalls language` exactly when
no stored symbol with the caller id has that language; in particular the
callee language and the call-site file play no role. -/
theorem C10_clearCalls_exact (db : DB) (language : String) (c : Call)
    (hc : c ∈ db.calls) :
    c ∈ (ClearCalls db language).calls ↔
      ¬ ∃ s ∈ db.symbols, s.id = c.callerID ∧ s.language = language := by
  simp only [ClearCalls, List.mem_filter]
  constructor
  · rintro ⟨-, hb⟩ ⟨s, hs, hid, hlang⟩
    have hany : db.symbols.any
        (fun s => s.id == c.callerID && s.language == language) = true :=
      List.any_eq_true.mpr ⟨s, hs, by simp [hid, hlang]⟩
    simp [hany] at hb
  · intro hne
    refine ⟨hc, ?_⟩
    cases hax : db.symbols.any
        (fun s => s.id == c.callerID && s.language == language) with
    | false => simp
    | true =>
      rcases List.any_eq_true.mp hax with ⟨s, hs, hp⟩
      simp only [Bool.and_eq_true, beq_iff_eq] at hp
      exact absurd ⟨s, hs, hp.1, hp.2⟩ hne


/-- Witness for C10: the edge whose caller is Python survives clearing
Go calls even though its callee and call-site file are Go. -/
theorem C10_clearCalls_exact_witness :
    crossCall ∈ (ClearCalls crossDB "go").calls ↔
      ¬ ∃ s ∈ crossDB.symbols, s.id = crossCall.callerID ∧
        s.language = "go" :=
  C10_clearCalls_exact crossDB "go" crossCall (by decide)


/-!  Claim C9: file-metadata lookup distinguishes absence from failure. -/

/-- C9: looking up a path with no stored file-metadata row yields `ok
none` — absence without error — and an error is produced only by a
genuine read failure of the underlying scan. -/
theorem C9_fileMeta_absence (db : DB) (path : String)
    (h : ∀ fm ∈ db.fileMeta, fm.path ≠ path) :
    GetFileMeta (fileMetaScan db path) = Except.ok none ∧
      ∀ (r : RowReadResult FileMeta) (e : String),
        GetFileMeta r = Except.error e → r = RowReadResult.readFailure e := by
  constructor
  · have hf : db.fileMeta.find? (fun m => m.path == path) = none := by
      rw [List.find?_eq_none]
      intro m hm
      simpa using h m hm
    simp [fileMetaScan, hf, GetFileMeta]
  · intro r e hr
    cases r with
    | found fm => simp [GetFileMeta] at hr
    | noRows => simp [GetFileMeta] at hr
    | readFailure msg =>
      simp only [GetFileMeta, Except.error.injEq] at hr
      rw [hr]


/-- Witness for C9 at a never-indexed path. -/
theorem C9_fileMeta_absence_witness :
    GetFileMeta (fileMetaScan metaDB "/r/new.go") = Except.ok none ∧
      ∀ (r : RowReadResult FileMeta) (e : String),
        GetFileMeta r = Except.error e → r = RowReadResult.readFailure e :=
  C9_fileMeta_absence metaDB "/r/new.go" (by decide)


/-!  Claim C3: the LSP symbol-kind collapse.  The spec claims the kind
vocabulary is the fifteen strings below; the code maps kind 1 to
`"file"`, which is outside that vocabulary (and maps 23, `Struct`, to
`"class"`, so `"struct"` is never produced by the LSP collapse). -/

/-- Counterexample to C3 as stated: LSP symbol-kind number 1 (`File`) is
within the 26-value enumeration, yet the computed kind is `"file"`,
which is not a member of the vocabulary claimed by the spec. -/
theorem C3_counterexample :
    SymbolKindToString 1 = "file" ∧
      "file" ∉ ["function", "method", "class", "interface", "struct",
        "enum", "enum_member", "type", "module", "field", "constructor",
        "variable", "constant", "type_parameter", "unknown"] := by
  decide


/-- C3 amended: for every symbol-kind number the computed kind lies in
the fixed fourteen-string vocabulary actually produced by the collapse
(which contains `"file"` and lacks `"struct"` and `"type"`), and every
number outside the 26-value enumeration collapses to `"unknown"`. -/
theorem C3_kind_collapse (k : Int) :
    SymbolKindToString k ∈ lspKindStrings ∧
      ((k < 1 ∨ 26 < k) → SymbolKindToString k = "unknown") := by
  have hout : (k < 1 ∨ 26 < k) → SymbolKindToString k = "unknown" := by
    intro hk
    unfold SymbolKindToString
    repeat rw [if_neg (by omega)]
  refine ⟨?_, hout⟩
  by_cases hk : k < 1 ∨ 26 < k
  · rw [hout hk]
    simp [lspKindStrings]
  · have h1 : 1 ≤ k := by omega
    have h2 : k ≤ 26 := by omega
    interval_cases k <;> decide


/-- Witness for C3 at the out-of-range kind number 30. -/
theorem C3_kind_collapse_witness :
    SymbolKindToString 30 ∈ lspKindStrings ∧
      SymbolKindToString 30 = "unknown" :=
  ⟨(C3_kind_collapse 30).1, (C3_kind_collapse 30).2 (Or.inr (by decide))⟩


/-- C5: for every store state and query, `GetCallers` and `GetCallees`
return at most one row per call-site triple; concretely, with one call
site stored once against the interface method and once against the
implementation, `callers("Read")` returns exactly one row. -/
theorem C5_dedup_by_call_site (db : DB) (name : String)
    (languages : List String) (site : SiteKey) :
    (GetCallers db name languages).countP
        (fun r => SiteKey.mk r.callFile r.callLine r.callColumn == site)
        ≤ 1 ∧
      (GetCallees db name languages).countP
        (fun r => SiteKey.mk r.callFile r.callLine r.callColumn == site)
        ≤ 1 ∧
      GetCallers overlapDB "Read" [] =
        [{ sym := processSym, callFile := "/r/main.go", callLine := 12,
           callColumn := 7 }] := by
  refine ⟨?_, ?_, by decide⟩
  · simp only [GetCallers]
    rw [countP_sortLe]
    exact countP_dedupBy_le _ site _
  · simp only [GetCallees]
    rw [countP_sortLe]
    exact countP_dedupBy_le _ site _


/-- Counterexample to C4 as stated: querying `callers("my_func")`
returns the caller of an edge whose callee id is `b.go#myxfunc`, because
the SQL `LIKE` pattern `%#my_func` lets `_` match the `x`; yet that
callee id satisfies none of the three literal patterns of the claim.
The divergence is not limited to wildcard characters: `LIKE` compares
ASCII letters case-insensitively, so even the wildcard-free name `main`
is accepted by the code against the callee id `a.go#Main`, which again
satisfies none of the literal patterns. -/
theorem C4_counterexample :
    GetCallers uDB "my_func" [] =
      [{ sym := uCaller, callFile := "/r/a.go", callLine := 5,
         callColumn := 3 }] ∧
      specCalleeMatch "my_func" "b.go#myxfunc" = false ∧
      callerPatternMatch "main" "a.go#Main" = true ∧
      specCalleeMatch "main" "a.go#Main" = false := by
  decide


/-- C4 amended: `GetCallers` returns exactly the rows of call edges
whose callee id matches one of the three patterns under SQL `LIKE`
semantics (`%` any sequence, `_` any single character, ASCII letters
case-insensitive), joined to their caller symbol and deduplicated per
call-site triple: every returned row comes from such an edge, every such
edge contributes its call site to the result, and the Java example of
the spec holds: `callers("main")` finds the call site of the method
stored as `main(String[])` through the `%#%.main(%` pattern. -/
theorem C4_callers_like_patterns :
    (∀ (db : DB) (n : String) (languages : List String)
      (r : CallerInfo), r ∈ GetCallers db n languages →
      ∃ c ∈ db.calls, r.sym ∈ db.symbols ∧ r.sym.id = c.callerID ∧
        callerPatternMatch n c.calleeID = true ∧
        langOk languages r.sym.language = true ∧
        r.callFile = c.file ∧ r.callLine = c.line ∧
        r.callColumn = c.column) ∧
    (∀ (db : DB) (n : String) (languages : List String) (c : Call),
      c ∈ db.calls →
      (∃ s ∈ db.symbols, s.id = c.callerID ∧
        langOk languages s.language = true) →
      callerPatternMatch n c.calleeID = true →
      ∃ r ∈ GetCallers db n languages,
        r.callFile = c.file ∧ r.callLine = c.line ∧
          r.callColumn = c.column) ∧
    GetCallers javaDB "main" [] =
      [{ sym := javaRunSym, callFile := "/r/Main.java", callLine := 10,
         callColumn := 8 }] := by
  refine ⟨?_, ?_, by decide⟩
  · intro db n languages r hr
    simp only [GetCallers] at hr
    have hr1 := mem_of_mem_dedupBy _ r _ ((mem_sortLe _ _ _).mp hr)
    rcases List.mem_flatMap.mp hr1 with ⟨c, hc, hr2⟩
    rcases List.mem_filterMap.mp hr2 with ⟨s, hs, hg⟩
    split at hg
    · rename_i hcond
      simp only [Bool.and_eq_true, beq_iff_eq] at hcond
      rcases Option.some.injEq _ _ ▸ hg with rfl
      exact ⟨c, hc, hs, hcond.1.1, hcond.1.2, hcond.2, rfl, rfl, rfl⟩
    · exact absurd hg (by simp)
  · intro db n languages c hc hcaller hmatch
    rcases hcaller with ⟨s, hs, hsid, hlang⟩
    have hrow : ({ sym := s, callFile := c.file, callLine := c.line,
                   callColumn := c.column } : CallerInfo) ∈
        db.calls.flatMap (fun c0 =>
          db.symbols.filterMap (fun s0 =>
            if s0.id == c0.callerID &&
                callerPatternMatch n c0.calleeID &&
                langOk languages s0.language then
              some { sym := s0, callFile := c0.file, callLine := c0.line,
                     callColumn := c0.column }
            else none)) := by
      refine List.mem_flatMap.mpr ⟨c, hc, List.mem_filterMap.mpr
        ⟨s, hs, ?_⟩⟩
      rw [if_pos (by simp [hsid, hmatch, hlang])]
    have hded := exists_mem_dedupBy
      (fun r : CallerInfo => SiteKey.mk r.callFile r.callLine r.callColumn)
      (SiteKey.mk c.file c.line c.column) _ ⟨_, hrow, rfl⟩
    rcases hded with ⟨b, hb, hbk⟩
    have hbfields := SiteKey.mk.injEq _ _ _ _ _ _ ▸ hbk
    refine ⟨b, ?_, hbfields.1, hbfields.2.1, hbfields.2.2⟩
    simp only [GetCallers]
    exact (mem_sortLe _ _ _).mpr hb


/-- Witness for C4 at the Java example: applying the completeness part
to the stored edge yields a returned row at its call site. -/
theorem C4_callers_like_patterns_witness :
    ∃ r ∈ GetCallers javaDB "main" [],
      r.callFile = javaCall.file ∧ r.callLine = javaCall.line ∧
        r.callColumn = javaCall.column :=
  C4_callers_like_patterns.2.1 javaDB "main" [] javaCall (by decide)
    ⟨javaRunSym, by decide, by decide, by decide⟩ (by decide)


/-- Counterexample to C1 as stated: running the tree-sitter hierarchy
pass over the extracted edge whose parent `Bar` resolves to no stored
symbol stores nothing at all — the edge is dropped, not stored by
display name — and even a type-hierarchy row whose `parent_id` holds the
display name `Bar` is not returned by `implementations("Bar")`, because
the query joins `parent_id` to stored symbol ids. -/
theorem C1_counterexample :
    (IndexHierarchyTreeSitter childOnlyDB "go" [unresolvedRel]).typeHier
        = [] ∧
      GetImplementationsByName
        { childOnlyDB with typeHier := [unresolvedRel] } "Bar" = [] := by
  decide


/-- C1 amended: a CST-extracted type edge whose parent display name
resolves to no stored symbol — neither with the file language nor
without a language filter — is dropped without writing anything; when
the lookup does resolve, the edge is stored with the first matching
symbol id as parent, and a stored edge whose parent id is a stored
symbol named `parent_name` makes `implementations(parent_name)` return
the child symbol. -/
theorem C1_unresolved_parent_dropped :
    (∀ (db : DB) (language : String) (rel : TypeHierarchy),
      GetSymbolByName db rel.parentID [language] = [] →
      GetSymbolByName db rel.parentID [] = [] →
      resolveHierarchyRel db language rel = db) ∧
    (∀ (db : DB) (language : String) (rel : TypeHierarchy)
      (p : Symbol) (ps : List Symbol),
      GetSymbolByName db rel.parentID [language] = p :: ps →
      resolveHierarchyRel db language rel =
        InsertTypeHierarchy db { rel with parentID := p.id }) ∧
    (∀ (db : DB) (typeName : String) (th : TypeHierarchy)
      (s p : Symbol), th ∈ db.typeHier → s ∈ db.symbols →
      p ∈ db.symbols → s.id = th.childID → p.id = th.parentID →
      p.name = typeName →
      s ∈ GetImplementationsByName db typeName) := by
  refine ⟨?_, ?_, ?_⟩
  · intro db language rel h1 h2
    unfold resolveHierarchyRel
    rw [h1]
    simp [h2]
  · intro db language rel p ps h1
    unfold resolveHierarchyRel
    rw [h1]
    simp
  · intro db typeName th s p hth hs hp hsid hpid hpname
    simp only [GetImplementationsByName]
    refine (mem_sortLe _ _ _).mpr (List.mem_flatMap.mpr ⟨th, hth,
      List.mem_flatMap.mpr ⟨s, hs, List.mem_filterMap.mpr
        ⟨p, hp, ?_⟩⟩⟩)
    rw [if_pos (by simp [hsid, hpid, hpname])]


/-- Witness for C1: with the parent stored, the edge is inserted with
the resolved parent id and the child is returned by
`implementations("Bar")`. -/
theorem C1_unresolved_parent_dropped_witness :
    resolveHierarchyRel resolvableDB "go" unresolvedRel =
        InsertTypeHierarchy resolvableDB resolvedRel ∧
      fooChildSym ∈ GetImplementationsByName
        (InsertTypeHierarchy resolvableDB resolvedRel) "Bar" :=
  ⟨C1_unresolved_parent_dropped.2.1 resolvableDB "go" unresolvedRel
      barParentSym [] (by decide),
    C1_unresolved_parent_dropped.2.2
      (InsertTypeHierarchy resolvableDB resolvedRel) "Bar" resolvedRel
      fooChildSym barParentSym (by decide) (by decide) (by decide)
      (by decide) (by decide) (by decide)⟩


/-- Membership in the file metadata written by one per-file step. -/
theorem indexFileStep_fileMeta_shape (d : DB) (j : FileJob) (now : Nat)
    (force : Bool) (m : FileMeta)
    (h : m ∈ (indexFileStep d j now force).fileMeta) :
    m ∈ d.fileMeta ∨ m.path = j.info.path := by
  simp only [indexFileStep] at h
  split at h
  · exact Or.inl h
  · split at h
    · simp only [UpdateFileMeta, insertSymbolList_fileMeta] at h
      rcases List.mem_append.mp h with h1 | h1
      · exact Or.inl (List.mem_filter.mp h1).1
      · rcases (by simpa using h1 : m = _) with rfl
        exact Or.inr rfl
    · split at h
      · simp only [UpdateFileMeta, insertSymbolList_fileMeta] at h
        rcases List.mem_append.mp h with h1 | h1
        · exact Or.inl (List.mem_filter.mp h1).1
        · rcases (by simpa using h1 : m = _) with rfl
          exact Or.inr rfl
      · exact Or.inl h


/-- Membership in the file metadata of a full pipeline run. -/
theorem IndexProject_fileMeta_shape (jobs : List FileJob) (db : DB)
    (now : Nat) (force : Bool) (m : FileMeta)
    (h : m ∈ (IndexProject db jobs now force).fileMeta) :
    m ∈ db.fileMeta ∨ ∃ j ∈ jobs, m.path = j.info.path := by
  have main : ∀ (js : List FileJob) (d : DB),
      m ∈ (js.foldl (fun d0 j => indexFileStep d0 j now force) d).fileMeta →
      m ∈ d.fileMeta ∨ ∃ j ∈ js, m.path = j.info.path := by
    intro js
    induction js with
    | nil => exact fun d hd => Or.inl hd
    | cons j0 js0 ih =>
      intro d hd
      rcases ih (indexFileStep d j0 now force) hd with h1 | h1
      · rcases indexFileStep_fileMeta_shape d j0 now force m h1 with h2 | h2
        · exact Or.inl h2
        · exact Or.inr ⟨j0, List.mem_cons_self _ _, h2⟩
      · rcases h1 with ⟨j, hj, hrest⟩
        exact Or.inr ⟨j, List.mem_cons_of_mem _ hj, hrest⟩
  simp only [IndexProject] at h
  split at h
  · rcases main jobs (ClearAll db) h with h1 | h1
    · exact absurd h1 (by simp [ClearAll])
    · exact Or.inr h1
  · exact main jobs db h


/-- Counterexample to C8 as stated: scanning a directory containing a
supported and an unsupported file succeeds with the unsupported file
silently dropped — the result is `ok` for every input, never a typed
error. -/
theorem C8_counterexample :
    Scan (fun _ => false) [goEntry, xyzEntry] =
        Except.ok [{ path := "/r/main.go", language := "go",
                     relPath := "main.go" }] ∧
      ∀ msg : String, Scan (fun _ => false) [goEntry, xyzEntry] ≠
        Except.error msg := by
  refine ⟨by rfl, ?_⟩
  intro msg h
  simp [Scan] at h


/-- C8 amended: a file whose lower-cased extension maps to no supported
language is silently omitted by the scanner — `Scan` succeeds and its
result contains no entry with that path, with no error of any kind — and
since the pipeline only writes symbol and file-metadata rows for the
files it is handed, no rows for such a file are ever written. -/
theorem C8_unsupported_silently_skipped :
    (∀ (shouldIgnore : String → Bool) (entries : List WalkEntry)
      (e : WalkEntry), e ∈ entries →
      LanguageFromExtension (toLowerAscii (extOf e.path)) = "" →
      ∃ files, Scan shouldIgnore entries = Except.ok files ∧
        ∀ fi ∈ files, fi.path ≠ e.path) ∧
    (∀ (db : DB) (jobs : List FileJob) (now : Nat) (force : Bool)
      (s : Symbol), s ∈ (IndexProject db jobs now force).symbols →
      s ∈ db.symbols ∨ ∃ j ∈ jobs, s.file = j.info.path) ∧
    (∀ (db : DB) (jobs : List FileJob) (now : Nat) (force : Bool)
      (m : FileMeta), m ∈ (IndexProject db jobs now force).fileMeta →
      m ∈ db.fileMeta ∨ ∃ j ∈ jobs, m.path = j.info.path) := by
  refine ⟨?_, ?_, ?_⟩
  · intro shouldIgnore entries e hmem hlang
    refine ⟨_, rfl, ?_⟩
    intro fi hfi
    rcases List.mem_filterMap.mp hfi with ⟨ex, hex2, hfx⟩
    simp only at hfx
    split at hfx
    · exact absurd hfx (by simp)
    · split at hfx
      · exact absurd hfx (by simp)
      · split at hfx
        · exact absurd hfx (by simp)
        · rename_i hig hdir hlf
          rcases (by simpa using hfx : _ = fi) with rfl
          intro hpath
          have hxe : ex.path = e.path := hpath
          rw [hxe, hlang] at hlf
          exact hlf (by simp)
  · intro db jobs now force s h
    rcases IndexProject_symbols_shape jobs db now force s h with
      h1 | ⟨j, hj, _, hfile, _⟩
    · exact Or.inl h1
    · exact Or.inr ⟨j, hj, hfile⟩
  · intro db jobs now force m h
    exact IndexProject_fileMeta_shape jobs db now force m h


/-- Witness for C8 at the concrete two-entry scan. -/
theorem C8_unsupported_silently_skipped_witness :
    ∃ files, Scan (fun _ => false) [goEntry, xyzEntry] =
        Except.ok files ∧ ∀ fi ∈ files, fi.path ≠ xyzEntry.path :=
  C8_unsupported_silently_skipped.1 (fun _ => false) [goEntry, xyzEntry]
    xyzEntry (by decide) (by decide)


/-- Counterexample to C2 as stated: indexing a file through the
tree-sitter fallback stores a symbol row whose source tag is the string
`"tree-sitter"`, not `"cst"`. -/
theorem C2_counterexample :
    ((IndexProject emptyDB [cstJob] 7 false).symbols.map
        (fun s => s.source)) = ["tree-sitter"] ∧
      ("tree-sitter" : String) ≠ "cst" := by
  decide


/-- C2 amended: every symbol row written by the pipeline carries source
`"lsp"` or `"tree-sitter"`: rows stored from LSP document symbols carry
`"lsp"`, rows stored by the tree-sitter fallback carry
`"tree-sitter"`, and a full pipeline run only adds rows with one of
those two tags. -/
theorem C2_source_tags :
    (∀ (file : FileInfo) (now : Nat) (scope : String) (f : DocForest)
      (s : Symbol), s ∈ storeForestRows file now scope f →
      s.source = "lsp") ∧
    (∀ (file : FileInfo) (now : Nat) (r : CstRaw) (s : Symbol),
      nodeToSymbol file now r = some s → s.source = "tree-sitter") ∧
    (∀ (db : DB) (jobs : List FileJob) (now : Nat) (force : Bool)
      (s : Symbol), s ∈ (IndexProject db jobs now force).symbols →
      s ∈ db.symbols ∨ s.source = "lsp" ∨ s.source = "tree-sitter") := by
  refine ⟨?_, ?_, ?_⟩
  · intro file now scope f s h
    exact (storeForestRows_shape file now scope f s h).1
  · intro file now r s h
    exact (nodeToSymbol_shape file now r s h).1
  · intro db jobs now force s h
    rcases IndexProject_symbols_shape jobs db now force s h with
      h1 | ⟨j, hj, hsrc, _⟩
    · exact Or.inl h1
    · exact Or.inr hsrc


/-- Witness for C2 at the concrete fallback run. -/
theorem C2_source_tags_witness :
    cstStoredSym ∈ emptyDB.symbols ∨ cstStoredSym.source = "lsp" ∨
      cstStoredSym.source = "tree-sitter" :=
  C2_source_tags.2.2 emptyDB [cstJob] 7 false cstStoredSym (by decide)


/-!  Claim C6: incremental skip is a frame property for the skipped
file.  The hypotheses express that the store and the job list are in the
shape the pipeline itself produces: distinct files have distinct
relative paths, relative paths contain no `#`, and every stored symbol
of the skipped file has the `relPath#...` id the pipeline writes. -/

/-- Splitting at the first hash is unambiguous when neither prefix
contains one. -/
theorem hash_split (r1 r2 a b : List Char) (h1 : '#' ∉ r1)
    (h2 : '#' ∉ r2) (h : r1 ++ '#' :: a = r2 ++ '#' :: b) :
    r1 = r2 ∧ a = b := by
  induction r1 generalizing r2 with
  | nil =>
    cases r2 with
    | nil => simpa using h
    | cons d ds =>
      simp only [List.nil_append, List.cons_append, List.cons.injEq] at h
      exact absurd (h.1 ▸ List.mem_cons_self _ _) h2
  | cons c cs ih =>
    cases r2 with
    | nil =>
      simp only [List.nil_append, List.cons_append, List.cons.injEq] at h
      exact absurd (h.1 ▸ List.mem_cons_self _ _) h1
    | cons d ds =>
      simp only [List.cons_append, List.cons.injEq] at h
      have hcs : '#' ∉ cs := fun hx => h1 (List.mem_cons_of_mem _ hx)
      have hds : '#' ∉ ds := fun hx => h2 (List.mem_cons_of_mem _ hx)
      rcases ih ds hcs hds h.2 with ⟨he1, he2⟩
      exact ⟨by rw [h.1, he1], he2⟩


/-- Two strings with equal character data are equal. -/
theorem string_eq_of_data_eq (s t : String) (h : s.data = t.data) :
    s = t := by
  cases s with
  | mk sd =>
    cases t with
    | mk td =>
      have h2 : sd = td := by simpa using h
      rw [h2]


/-- Filtering by file is unaffected by removing rows of an id that no
row of that file has. -/
theorem filter_file_of_fresh (P tid : String) (l : List Symbol)
    (hfresh : ∀ s ∈ l, s.file = P → s.id ≠ tid) :
    (l.filter (fun r => r.id != tid)).filter (fun s => s.file == P) =
      l.filter (fun s => s.file == P) := by
  induction l with
  | nil => rfl
  | cons x xs ih =>
    have ihx := ih (fun s hs => hfresh s (List.mem_cons_of_mem _ hs))
    by_cases hx : x.file = P
    · have hxid : x.id ≠ tid := hfresh x (List.mem_cons_self _ _) hx
      simp [List.filter_cons, hx, hxid, ihx]
    · by_cases hxid : x.id = tid
      · simp [List.filter_cons, hx, hxid, ihx]
      · simp [List.filter_cons, hx, hxid, ihx]


/-- A single `InsertSymbol` of a row of another file, whose id clashes
with no row of file `P`, leaves the rows of file `P` unchanged. -/
theorem InsertSymbol_filter_file (db : DB) (t : Symbol) (P : String)
    (ht : t.file ≠ P)
    (hfresh : ∀ s ∈ db.symbols, s.file = P → s.id ≠ t.id) :
    (InsertSymbol db t).symbols.filter (fun s => s.file == P) =
      db.symbols.filter (fun s => s.file == P) := by
  simp only [InsertSymbol, List.filter_append]
  rw [filter_file_of_fresh P t.id db.symbols hfresh]
  simp [ht]


/-- A sequence of inserts of rows of other files, with fresh ids, leaves
the rows of file `P` unchanged. -/
theorem insertSymbolList_filter_file (P : String) (rows : List Symbol)
    (db : DB) (hfile : ∀ t ∈ rows, t.file ≠ P)
    (hfresh : ∀ s ∈ db.symbols, s.file = P → ∀ t ∈ rows, s.id ≠ t.id) :
    (insertSymbolList db rows).symbols.filter (fun s => s.file == P) =
      db.symbols.filter (fun s => s.file == P) := by
  induction rows generalizing db with
  | nil => rfl
  | cons t ts ih =>
    have hstep : (insertSymbolList db (t :: ts)) =
        insertSymbolList (InsertSymbol db t) ts := rfl
    rw [hstep]
    have htf : t.file ≠ P := hfile t (List.mem_cons_self _ _)
    have h1 := ih (InsertSymbol db t)
      (fun u hu => hfile u (List.mem_cons_of_mem _ hu))
      (fun s hs hsP u hu => by
        rcases mem_InsertSymbol db t s hs with h2 | h2
        · exact hfresh s h2 hsP u (List.mem_cons_of_mem _ hu)
        · exact absurd (h2 ▸ hsP) htf)
    rw [h1]
    exact InsertSymbol_filter_file db t P htf
      (fun s hs hsP => hfresh s hs hsP t (List.mem_cons_self _ _))


/-- Replacing the metadata row of another path leaves the lookup of path
`P` unchanged. -/
theorem find?_path_frame (P Q : String) (hne : Q ≠ P)
    (l : List FileMeta) (newm : FileMeta) (hQ : newm.path = Q) :
    ((l.filter (fun x => x.path != Q)) ++ [newm]).find?
        (fun x => x.path == P) = l.find? (fun x => x.path == P) := by
  have hQP : (Q == P) = false := beq_eq_false_iff_ne.mpr hne
  induction l with
  | nil =>
    have hmP : (newm.path == P) = false := by rw [hQ]; exact hQP
    simp [List.find?_cons, hmP]
  | cons x xs ih =>
    by_cases hx : x.path = Q
    · have hxP : (x.path == P) = false := by rw [hx]; exact hQP
      have hbne : (x.path != Q) = false := by simp [hx]
      rw [List.filter_cons, hbne]
      simp only [Bool.false_eq_true, if_false]
      rw [ih]
      simp [List.find?_cons, hxP]
    · have hbne : (x.path != Q) = true := by simp [hx]
      rw [List.filter_cons, hbne]
      simp only [if_true]
      by_cases hxp : x.path = P
      · have hxP : (x.path == P) = true := by simp [hxp]
        simp [List.find?_cons, hxP]
      · have hxP : (x.path == P) = false := by simp [hxp]
        simp only [List.cons_append, List.find?_cons, hxP]
        exact ih


/-- Frame for one store-and-update of another file: the metadata row of
path `P` is still found, the symbol rows of file `P` are untouched, and
they keep their `R#...` id shape. -/
theorem updateStep_frame (P R : String) (m : FileMeta) (d : DB)
    (fpath frel flang : String) (now : Nat) (rows : List Symbol)
    (hjp : fpath ≠ P)
    (hmeta : d.fileMeta.find? (fun x => x.path == P) = some m)
    (hrelne : frel ≠ R)
    (hnohashR : '#' ∉ R.data) (hnohashj : '#' ∉ frel.data)
    (hwf : ∀ s ∈ d.symbols, s.file = P →
      ∃ rest, s.id.data = R.data ++ '#' :: rest)
    (hrows : ∀ t ∈ rows, t.file = fpath ∧
      ∃ rest, t.id.data = frel.data ++ '#' :: rest) :
    ((UpdateFileMeta (insertSymbolList d rows) fpath now
        flang).fileMeta.find? (fun x => x.path == P) = some m) ∧
      (UpdateFileMeta (insertSymbolList d rows) fpath now
        flang).symbols.filter (fun s => s.file == P) =
        d.symbols.filter (fun s => s.file == P) ∧
      (∀ s ∈ (UpdateFileMeta (insertSymbolList d rows) fpath now
        flang).symbols, s.file = P →
        ∃ rest, s.id.data = R.data ++ '#' :: rest) := by
  have hfresh : ∀ s ∈ d.symbols, s.file = P → ∀ t ∈ rows, s.id ≠ t.id := by
    intro s hs hsP t ht hid
    rcases hwf s hs hsP with ⟨r1, hr1⟩
    rcases (hrows t ht).2 with ⟨r2, hr2⟩
    rw [hid, hr2] at hr1
    have := (hash_split R.data frel.data r1 r2 hnohashR hnohashj
      hr1.symm).1
    exact hrelne (string_eq_of_data_eq frel R this.symm)
  refine ⟨?_, ?_, ?_⟩
  · have hmm : (insertSymbolList d rows).fileMeta.find?
        (fun x => x.path == P) = some m := by
      rw [insertSymbolList_fileMeta]
      exact hmeta
    simp only [UpdateFileMeta]
    rw [find?_path_frame P fpath hjp _ _ rfl]
    rw [insertSymbolList_fileMeta]
    exact hmeta
  · show (insertSymbolList d rows).symbols.filter (fun s => s.file == P)
        = d.symbols.filter (fun s => s.file == P)
    exact insertSymbolList_filter_file P rows d
      (fun t ht => (hrows t ht).1 ▸ hjp) hfresh
  · intro s hs hsP
    have hs2 : s ∈ (insertSymbolList d rows).symbols := hs
    rcases mem_insertSymbolList rows d s hs2 with h1 | h1
    · exact hwf s h1 hsP
    · exact absurd ((hrows s h1).1 ▸ hsP) hjp


/-- Frame for one whole per-file step of a non-forced run. -/
theorem indexFileStep_frame (P R : String) (m : FileMeta) (d : DB)
    (j : FileJob) (now : Nat)
    (hmeta : d.fileMeta.find? (fun x => x.path == P) = some m)
    (hskipj : j.info.path = P → j.mtime ≤ m.modTime)
    (hrel : j.info.path ≠ P → j.info.relPath ≠ R)
    (hnohashR : '#' ∉ R.data)
    (hnohashj : '#' ∉ j.info.relPath.data)
    (hwf : ∀ s ∈ d.symbols, s.file = P →
      ∃ rest, s.id.data = R.data ++ '#' :: rest) :
    ((indexFileStep d j now false).fileMeta.find?
        (fun x => x.path == P) = some m) ∧
      (indexFileStep d j now false).symbols.filter
        (fun s => s.file == P) =
        d.symbols.filter (fun s => s.file == P) ∧
      (∀ s ∈ (indexFileStep d j now false).symbols, s.file = P →
        ∃ rest, s.id.data = R.data ++ '#' :: rest) := by
  by_cases hss : shouldSkipFile d j = true
  · have hred : indexFileStep d j now false = d := by
      simp [indexFileStep, hss]
    rw [hred]
    exact ⟨hmeta, rfl, hwf⟩
  · have hjp : j.info.path ≠ P := by
      intro hjpp
      apply hss
      unfold shouldSkipFile
      rw [hjpp, hmeta]
      simpa using hskipj hjpp
    cases hl : j.lspSymbols with
    | some forest =>
      have hred : indexFileStep d j now false =
          UpdateFileMeta
            (insertSymbolList d (storeForestRows j.info now "" forest))
            j.info.path now j.info.language := by
        simp [indexFileStep, hss, hl]
      rw [hred]
      exact updateStep_frame P R m d j.info.path j.info.relPath
        j.info.language now _ hjp hmeta (hrel hjp) hnohashR hnohashj hwf
        (fun t ht => by
          rcases storeForestRows_shape j.info now "" forest t ht with
            ⟨-, hf, hid⟩
          exact ⟨hf, hid⟩)
    | none =>
      cases hc : j.cstSymbols with
      | some raws =>
        have hred : indexFileStep d j now false =
            UpdateFileMeta
              (insertSymbolList d
                (raws.filterMap (nodeToSymbol j.info now)))
              j.info.path now j.info.language := by
          simp [indexFileStep, hss, hl, hc]
        rw [hred]
        exact updateStep_frame P R m d j.info.path j.info.relPath
          j.info.language now _ hjp hmeta (hrel hjp) hnohashR hnohashj
          hwf
          (fun t ht => by
            rcases List.mem_filterMap.mp ht with ⟨r, _, hr⟩
            rcases nodeToSymbol_shape j.info now r t hr with ⟨-, hf, hid⟩
            exact ⟨hf, hid⟩)
      | none =>
        have hred : indexFileStep d j now false = d := by
          simp [indexFileStep, hss, hl, hc]
        rw [hred]
        exact ⟨hmeta, rfl, hwf⟩


/-- C6: on a non-forced run, a file whose stored metadata timestamp is
at least its current modification time is skipped, and the stored
symbols of that file are exactly the same after the run; hypotheses pin
the store and job list to pipeline-produced shape (distinct relative
paths without `#`, ids of the skipped file of the `relPath#...` form). -/
theorem C6_incremental_skip_frame (db : DB) (jobs : List FileJob)
    (now : Nat) (P R : String) (m : FileMeta)
    (hmeta : db.fileMeta.find? (fun x => x.path == P) = some m)
    (hskip : ∀ j ∈ jobs, j.info.path = P → j.mtime ≤ m.modTime)
    (hother : ∀ j ∈ jobs, j.info.path ≠ P → j.info.relPath ≠ R)
    (hnohashR : '#' ∉ R.data)
    (hnohash : ∀ j ∈ jobs, '#' ∉ j.info.relPath.data)
    (hwf : ∀ s ∈ db.symbols, s.file = P →
      ∃ rest, s.id.data = R.data ++ '#' :: rest) :
    (∀ j : FileJob, j.info.path = P → j.mtime ≤ m.modTime →
      shouldSkipFile db j = true) ∧
      (IndexProject db jobs now false).symbols.filter
        (fun s => s.file == P) =
        db.symbols.filter (fun s => s.file == P) := by
  constructor
  · intro j hjp hjm
    unfold shouldSkipFile
    rw [hjp, hmeta]
    simpa using hjm
  · have main : ∀ (js : List FileJob) (d : DB),
        (∀ j ∈ js, j.info.path = P → j.mtime ≤ m.modTime) →
        (∀ j ∈ js, j.info.path ≠ P → j.info.relPath ≠ R) →
        (∀ j ∈ js, '#' ∉ j.info.relPath.data) →
        (d.fileMeta.find? (fun x => x.path == P) = some m) →
        (∀ s ∈ d.symbols, s.file = P →
          ∃ rest, s.id.data = R.data ++ '#' :: rest) →
        (js.foldl (fun d0 j => indexFileStep d0 j now false) d).symbols.filter
          (fun s => s.file == P) =
          d.symbols.filter (fun s => s.file == P) := by
      intro js
      induction js with
      | nil => exact fun d _ _ _ _ _ => rfl
      | cons j0 js0 ih =>
        intro d hsk hot hnh hdm hdw
        have hstep := indexFileStep_frame P R m d j0 now hdm
          (hsk j0 (List.mem_cons_self _ _))
          (hot j0 (List.mem_cons_self _ _)) hnohashR
          (hnh j0 (List.mem_cons_self _ _)) hdw
        have htail := ih (indexFileStep d j0 now false)
          (fun j hj => hsk j (List.mem_cons_of_mem _ hj))
          (fun j hj => hot j (List.mem_cons_of_mem _ hj))
          (fun j hj => hnh j (List.mem_cons_of_mem _ hj))
          hstep.1 hstep.2.2
        calc (List.foldl (fun d0 j => indexFileStep d0 j now false) d
              (j0 :: js0)).symbols.filter (fun s => s.file == P)
            = (List.foldl (fun d0 j => indexFileStep d0 j now false)
                (indexFileStep d j0 now false) js0).symbols.filter
                (fun s => s.file == P) := rfl
          _ = (indexFileStep d j0 now false).symbols.filter
                (fun s => s.file == P) := htail
          _ = d.symbols.filter (fun s => s.file == P) := hstep.2.1
    have hstart : IndexProject db jobs now false =
        jobs.foldl (fun d0 j => indexFileStep d0 j now false) db := by
      simp [IndexProject]
    rw [hstart]
    exact main jobs db hskip hother hnohash hmeta hwf


/-- Witness for C6: a two-file incremental run where one file is
unchanged. -/
theorem C6_incremental_skip_frame_witness :
    (∀ j : FileJob, j.info.path = "/r/a.go" → j.mtime ≤ aMeta.modTime →
      shouldSkipFile c6DB j = true) ∧
      (IndexProject c6DB [skipJob, otherJob] 42 false).symbols.filter
        (fun s => s.file == "/r/a.go") =
        c6DB.symbols.filter (fun s => s.file == "/r/a.go") :=
  C6_incremental_skip_frame c6DB [skipJob, otherJob] 42 "/r/a.go" "a.go"
    aMeta (by decide) (by decide) (by decide) (by decide) (by decide)
    (by
      intro s hs hsP
      rcases List.mem_singleton.mp hs with rfl
      exact ⟨"f".data, by decide⟩)


end Codegraph
